import Mathlib

/-!
Verification of the Trade-Signals repository's heuristic core.

The Python sources (`src/main.py`, `src/main_bias_reversal_final_fix.py`,
`src/main_update4_diag.py`, `src/app.py`) are shallowly embedded below:
candle frames become `List Candle` (oldest to newest), prices become `ℚ`,
fallible results become `Option`, and Python's `round(x, n)` becomes
`pyRound` (round half to even on the scaled value, as CPython does).
-/

set_option linter.unusedVariables false

namespace TradeSignals

/-- An OHLC candle as built by `fetch_oanda_candles` / `fetch_ohlc`:
`{"time": ..., "open": ..., "high": ..., "low": ..., "close": ...}`.
The Python field `open` is a Lean keyword, so it is named `open_` here. -/
structure Candle where
  time : ℕ
  open_ : ℚ
  high : ℚ
  low : ℚ
  close : ℚ
deriving DecidableEq

/-- The spec's candle invariant: low ≤ min(open,close) ≤ max(open,close) ≤ high. -/
def CandleInv (c : Candle) : Prop :=
  c.low ≤ c.open_ ∧ c.low ≤ c.close ∧ c.open_ ≤ c.high ∧ c.close ≤ c.high

instance (c : Candle) : Decidable (CandleInv c) := by
  unfold CandleInv; infer_instance

/-- `df["close"].values` of a frame. -/
def closes (df : List Candle) : List ℚ := df.map Candle.close

/-- `df["high"].values` of a frame. -/
def highsOf (df : List Candle) : List ℚ := df.map Candle.high

/-- `df["low"].values` of a frame. -/
def lowsOf (df : List Candle) : List ℚ := df.map Candle.low

/-- `df["time"].values` of a frame. -/
def timesOf (df : List Candle) : List ℕ := df.map Candle.time

/-- The last `n` elements of a list (`df.tail(n)` / `xs[-n:]` for `n ≥ 1`). -/
def lastN (n : ℕ) (xs : List α) : List α := xs.drop (xs.length - n)

/-- Python's `xs[-n:]` for a nonnegative int `n`: for `n = 0` this is the
whole list (`xs[-0:] = xs[0:]`), otherwise the last `n` elements. -/
def pySliceLast (n : ℕ) (xs : List α) : List α :=
  if n = 0 then xs else lastN n xs

/-- `np.abs(np.diff(xs))`: absolute differences of consecutive elements. -/
def diffsAbs : List ℚ → List ℚ
  | x :: y :: rest => |y - x| :: diffsAbs (y :: rest)
  | _ => []

/-- `np.mean`: sum divided by length (callers only use it on nonempty lists). -/
def listMean (xs : List ℚ) : ℚ := xs.sum / (xs.length : ℚ)

/-- Python's `max(xs)` for a list of prices, `none` on the empty list. -/
def listMax : List ℚ → Option ℚ
  | [] => none
  | x :: rest => some (rest.foldl max x)

/-- Python's `min(xs)` for a list of prices, `none` on the empty list. -/
def listMin : List ℚ → Option ℚ
  | [] => none
  | x :: rest => some (rest.foldl min x)

/-- Round half to even to an integer, as CPython's `round` does. -/
def roundHalfEven (x : ℚ) : ℤ :=
  if x - ⌊x⌋ < 1/2 then ⌊x⌋
  else if 1/2 < x - ⌊x⌋ then ⌊x⌋ + 1
  else if Even ⌊x⌋ then ⌊x⌋ else ⌊x⌋ + 1

/-- Python's `round(x, n)` for `n` decimal digits (round half to even). -/
def pyRound (n : ℕ) (x : ℚ) : ℚ :=
  (roundHalfEven (x * 10 ^ n) : ℚ) / 10 ^ n

/-- The true ranges of `ta.volatility.AverageTrueRange._true_range` for the
bars after the first, given the previous bar: the row-wise max of
`tr1 = high - low`, `tr2 = |high - prev_close|`, `tr3 = |low - prev_close|`. -/
def ta_trueRangesFrom (prev : Candle) : List Candle → List ℚ
  | [] => []
  | b :: rest =>
    max (b.high - b.low) (max |b.high - prev.close| |b.low - prev.close|) ::
      ta_trueRangesFrom b rest

/-- The full true-range series of `ta.volatility.AverageTrueRange`: at bar 0
the shifted previous close is NaN, `tr2`/`tr3` are NaN, and the row-wise max
skips them, leaving `high - low`; every later bar uses the three-way max. -/
def ta_trueRanges : List Candle → List ℚ
  | [] => []
  | c :: rest => (c.high - c.low) :: ta_trueRangesFrom c rest

/-- The `_run` loop of `ta.volatility.AverageTrueRange`, evaluated at the
last index: `atr[window-1] = tr[0:window].mean()`, then Wilder smoothing
`atr[i] = (atr[i-1]*(window-1) + tr[i]) / window` up to the end. -/
def wilderLast (trs : List ℚ) (window : ℕ) : ℚ :=
  (trs.drop window).foldl
    (fun a tr => (a * ((window : ℚ) - 1) + tr) / (window : ℚ))
    (listMean (trs.take window))

/-- The `try` branch of `atr`:
`float(ta.volatility.AverageTrueRange(high, low, close, window).average_true_range().iloc[-1])`.
For a frame of at least `window ≥ 1` bars the library's
`atr[window-1] = tr[0:window].mean()` assignment succeeds and the Wilder
recursion runs to the last bar; on a shorter frame that assignment raises
IndexError, modelled as `none` (caught by `atr`'s `except` branch).  For
`window = 0` the library degenerates to NaN float arithmetic instead of
raising, which this rational embedding does not model — every theorem about
`atr` below assumes a period of at least 1. -/
def ta_averageTrueRange (df : List Candle) (window : ℕ) : Option ℚ :=
  if 1 ≤ window ∧ window ≤ df.length then
    some (wilderLast (ta_trueRanges df) window)
  else none

/-- `atr(df, period)` from `src/main.py` lines 115-124 (identical copy in
`src/main_bias_reversal_final_fix.py`): the `try` branch returns the `ta`
package's Wilder-smoothed true-range ATR, which succeeds whenever the frame
has at least `period` bars; only when that branch raises (shorter frames)
does the `except` branch run: `None` for fewer than 2 closes, otherwise the
mean of the last `period` absolute close-to-close differences. -/
def atr (df : List Candle) (period : ℕ) : Option ℚ :=
  match ta_averageTrueRange df period with
  | some a => some a
  | none =>
    if (closes df).length < 2 then none
    else if 0 < (diffsAbs (closes df)).length then
      some (listMean (pySliceLast period (diffsAbs (closes df))))
    else none

/-- One step of the exponentially weighted mean with smoothing factor `α`. -/
def emaStep (α : ℚ) (e x : ℚ) : ℚ := α * x + (1 - α) * e

/-- Last value of `series.ewm(span=window, adjust=False).mean()`: seeded from
the first element, iterated over the whole sequence with `α = 2/(window+1)`.
This is what `ta.trend.ema_indicator` (used by `ema_dir`) and the local
`ema` helper of `src/main_update4_diag.py` evaluate at the final index. -/
def emaLast (window : ℕ) : List ℚ → Option ℚ
  | [] => none
  | x :: rest => some (rest.foldl (emaStep (2 / ((window : ℚ) + 1))) x)

/-- `ema_dir(df, fast, slow)` from `src/main.py` lines 126-133: `None` when the
frame is missing or has fewer than `slow + 2` bars, otherwise `"BUY"` when the
fast EMA exceeds the slow EMA at the last bar and `"SELL"` otherwise.
(The source's `except` branch fires only when the EMA call itself fails,
e.g. for a zero window; theorems below restrict to `1 ≤ fast < slow`.) -/
def ema_dir (df : Option (List Candle)) (fast slow : ℕ) : Option String :=
  match df with
  | none => none
  | some d =>
    if d.length < slow + 2 then none
    else
      match emaLast fast (closes d), emaLast slow (closes d) with
      | some ef, some es => some (if es < ef then "BUY" else "SELL")
      | _, _ => none

/-- `swings_24h(df_15m)` from `src/main.py` lines 141-145: `(None, None)` for
fewer than 6 bars, otherwise the max high and min low of the last
`min(len, 96)` bars.  (The source first checks `df is None`; the embedding
takes the frame itself, the `None`-frame case being handled by callers.) -/
def swings_24h (df : List Candle) : Option ℚ × Option ℚ :=
  if df.length < 6 then (none, none)
  else (listMax (highsOf (lastN 96 df)), listMin (lowsOf (lastN 96 df)))

/-- `atr_val` inside `compute_tp_sl` (`src/main.py` line 166):
`atr15 if atr15 and atr15>0 else 0.0` — the ATR when it is a positive
number, `0.0` when it is `None`, `0.0` or negative. -/
def atr_val (df : List Candle) : ℚ :=
  match atr df 14 with
  | some a => if 0 < a then a else 0
  | none => 0

/-- `base_distance` inside `compute_tp_sl` (`src/main.py` line 169):
`max(min_tp_base, min_tp_base + atr_val)`. -/
def base_distance (df : List Candle) (min_tp_base : ℚ) : ℚ :=
  max min_tp_base (min_tp_base + atr_val df)

/-- `buffer` inside `compute_tp_sl` (`src/main.py` line 173):
`max(abs(entry)*0.002, 1.0)`. -/
def tp_buffer (entry : ℚ) : ℚ := max (|entry| * (2/1000)) 1

/-- `swing_tp` inside `compute_tp_sl` (`src/main.py` lines 175-187): the
swing extreme offset by the buffer, kept only when its distance from entry
is at least the base distance in the trade direction. -/
def swing_tp (entry : ℚ) (direction : String) (df : List Candle)
    (min_tp_base : ℚ) : Option ℚ :=
  if direction = "BUY" then
    match (swings_24h df).1 with
    | some sh =>
      let cand := sh - tp_buffer entry
      if base_distance df min_tp_base ≤ cand - entry then some cand else none
    | none => none
  else if direction = "SELL" then
    match (swings_24h df).2 with
    | some sl =>
      let cand := sl + tp_buffer entry
      if base_distance df min_tp_base ≤ entry - cand then some cand else none
    | none => none
  else none

/-- `tp` inside `compute_tp_sl` (`src/main.py` lines 189-192), before the
final rounding: the swing target when one qualified, otherwise
`entry ± base_distance`. -/
def tp_raw (entry : ℚ) (direction : String) (df : List Candle)
    (min_tp_base : ℚ) : ℚ :=
  match swing_tp entry direction df min_tp_base with
  | some t => t
  | none =>
    if direction = "BUY" then entry + base_distance df min_tp_base
    else entry - base_distance df min_tp_base

/-- `sl` inside `compute_tp_sl` (`src/main.py` lines 194-196), before the
final rounding: entry offset by the ATR when positive, else half the base
distance, on the opposite side from the target. -/
def sl_raw (entry : ℚ) (direction : String) (df : List Candle)
    (min_tp_base : ℚ) : ℚ :=
  let sl_dist := if 0 < atr_val df then atr_val df else base_distance df min_tp_base / 2
  if direction = "BUY" then entry - sl_dist else entry + sl_dist

/-- `final_dist` inside `compute_tp_sl` (`src/main.py` line 198):
`(tp - entry) if direction=="BUY" else (entry - tp)`. -/
def final_dist (entry : ℚ) (direction : String) (df : List Candle)
    (min_tp_base : ℚ) : ℚ :=
  if direction = "BUY" then tp_raw entry direction df min_tp_base - entry
  else entry - tp_raw entry direction df min_tp_base

/-- `compute_tp_sl(entry, direction, df_15m, instrument, min_tp_base)` from
`src/main.py` lines 154-202 (identical in
`src/main_bias_reversal_final_fix.py` lines 287-335): returns
`(tp, sl, reason_flag)`.  `instrument` is accepted and unused, as in the
source. -/
def compute_tp_sl (entry : Option ℚ) (direction : String) (df_15m : List Candle)
    (instrument : String) (min_tp_base : ℚ) : Option ℚ × Option ℚ × String :=
  match entry with
  | none => (none, none, "no_entry")
  | some e =>
    if final_dist e direction df_15m min_tp_base < min_tp_base then
      (none, none, "tp_too_small")
    else
      (some (pyRound 6 (tp_raw e direction df_15m min_tp_base)),
       some (pyRound 6 (sl_raw e direction df_15m min_tp_base)), "ok")

/-- One per-rule `info` dict of `analyze_instrument` (`src/main.py`
lines 247-279). -/
structure RuleInfo where
  signal : String
  entry : Option ℚ
  tp : Option ℚ
  sl : Option ℚ
  reason : String
  dir_15 : Option String
  dir_5 : Option String
  dir_1 : Option String
  confirm_1m : Option String
deriving DecidableEq

/-- The body of the rules loop of `analyze_instrument` (`src/main.py`
lines 236-279) for one `min_tp` rule, as a function of the already-computed
directional signals, entry, 30-minute range and mapped minimum distance.
The 30m-volatility branch formats the offending numbers into its reason
string in the source; the embedding keeps the fixed prefix of that string. -/
def rule_result (dir_15 dir_5 dir_1 confirm_1m : Option String)
    (entry : Option ℚ) (range_30m mapped_min : ℚ) (df_15 : List Candle)
    (symbol : String) : RuleInfo :=
  let base : RuleInfo :=
    { signal := "NO TRADE", entry := none, tp := none, sl := none,
      reason := "unknown", dir_15 := dir_15, dir_5 := dir_5, dir_1 := dir_1,
      confirm_1m := confirm_1m }
  if ¬((dir_15 = some "BUY" ∨ dir_15 = some "SELL") ∧
       (dir_5 = some "BUY" ∨ dir_5 = some "SELL") ∧ dir_15 = dir_5) then
    { base with reason := "15m and 5m do not agree" }
  else if ¬(dir_1 = some "BUY" ∨ dir_1 = some "SELL") then
    { base with reason := "1m EMA direction unknown" }
  else if dir_1 ≠ dir_15 then
    { base with reason := "1m EMA doesn't match 5m/15m agreement" }
  else if range_30m < mapped_min then
    { base with reason := "Low 30m volatility < required" }
  else
    let r := compute_tp_sl entry (dir_15.getD "") df_15 symbol mapped_min
    if r.2.2 ≠ "ok" then { base with reason := r.2.2 }
    else
      { base with
        signal := dir_15.getD ""
        entry := entry.map (pyRound 6)
        tp := r.1
        sl := r.2.1
        reason := "ok" }

/-- One swing-point record `{"time": ..., "price": ...}` of
`src/main_update4_diag.py`. -/
structure SwingPt where
  time : ℕ
  price : ℚ
deriving DecidableEq

/-- `xs[i]` with the out-of-range default `0` (indices used by the embedding
are always in range). -/
def valsAt (xs : List ℚ) (i : ℕ) : ℚ := xs.getD i 0

/-- The Python slice `xs[i-left : i+right+1]` used by `swing_points`
(callers always have `left ≤ i`). -/
def windowSlice (xs : List ℚ) (i left right : ℕ) : List ℚ :=
  (xs.drop (i - left)).take (left + right + 1)

/-- The `(listMin xs).getD 0` value of a window (windows are nonempty at
every use site). -/
def listMinD (xs : List ℚ) : ℚ := (listMin xs).getD 0

/-- The `(listMax xs).getD 0` value of a window. -/
def listMaxD (xs : List ℚ) : ℚ := (listMax xs).getD 0

/-- Indices flagged by the `low[i] == min(low[i-left:i+right+1])` test of
`swing_points` (`src/main_update4_diag.py` lines 92-96), over
`range(left, len-right)`. -/
def localMinIdx (vals : List ℚ) (left right : ℕ) : List ℕ :=
  (List.range' left (vals.length - right - left)).filter
    (fun i => decide (valsAt vals i = listMinD (windowSlice vals i left right)))

/-- Indices flagged by the `high[i] == max(high[i-left:i+right+1])` test of
`swing_points`. -/
def localMaxIdx (vals : List ℚ) (left right : ℕ) : List ℕ :=
  (List.range' left (vals.length - right - left)).filter
    (fun i => decide (valsAt vals i = listMaxD (windowSlice vals i left right)))

/-- `swing_points(df, left, right)` from `src/main_update4_diag.py`
lines 88-99: `(highs, lows)`, each the flagged bars in scan (index) order,
truncated by `[-10:]` to the last ten. -/
def swing_points (df : List Candle) (left right : ℕ) : List SwingPt × List SwingPt :=
  let highs := highsOf df
  let lows := lowsOf df
  (lastN 10 ((localMaxIdx highs left right).map
      (fun i => ⟨(timesOf df).getD i 0, valsAt highs i⟩)),
   lastN 10 ((localMinIdx lows left right).map
      (fun i => ⟨(timesOf df).getD i 0, valsAt lows i⟩)))

/-- The result dict of `compute_signal_instant`
(`src/main_update4_diag.py` lines 104-120). -/
structure SigResult where
  direction : String
  price : Option ℚ
  take_profit : Option ℚ
  stop_loss : Option ℚ
  risk_reward : Option ℚ
deriving DecidableEq

/-- `compute_signal_instant(df_1m)` from `src/main_update4_diag.py`
lines 104-120: below 25 bars a `"None"` result carrying only the last close;
otherwise an EMA20-filtered engulfing test on the last two candles with a
fixed 2:1 reward ratio.  The final catch-all branch is unreachable for
frames of length ≥ 25. -/
def compute_signal_instant (df_1m : List Candle) : SigResult :=
  if df_1m.length < 25 then
    { direction := "None", price := (closes df_1m).getLast?,
      take_profit := none, stop_loss := none, risk_reward := none }
  else
    match df_1m.reverse with
    | c1 :: c2 :: _ =>
      let price := c1.close
      let e20 := (emaLast 20 (closes df_1m)).getD 0
      if c1.open_ < c1.close ∧ c1.open_ ≤ c2.close ∧ c2.open_ ≤ c1.close ∧
          e20 < c1.close then
        let sl := min c1.low c2.low
        let tp := price + 2 * (price - sl)
        { direction := "Buy", price := some price, take_profit := some tp,
          stop_loss := some sl,
          risk_reward := some (pyRound 2 ((tp - price) / (price - sl))) }
      else if c1.close < c1.open_ ∧ c2.close ≤ c1.open_ ∧ c1.close ≤ c2.open_ ∧
          c1.close < e20 then
        let sl := max c1.high c2.high
        let tp := price - 2 * (sl - price)
        { direction := "Sell", price := some price, take_profit := some tp,
          stop_loss := some sl,
          risk_reward := some (pyRound 2 ((price - tp) / (sl - price))) }
      else
        { direction := "None", price := some price, take_profit := none,
          stop_loss := none, risk_reward := none }
    | _ =>
      { direction := "None", price := none, take_profit := none,
        stop_loss := none, risk_reward := none }

/-- `trade_signal(df, min_points)` from `src/app.py` lines 44-54: compares
the last close against the frame's extreme high and low.  On the empty frame
the source raises (`iloc[-1]` on an empty column); the embedding returns the
all-`none` triple there, and the theorems below quantify over nonempty
frames only. -/
def trade_signal (df : List Candle) (min_points : ℚ) :
    Option String × Option ℚ × Option ℚ :=
  match (closes df).getLast?, listMax (highsOf df), listMin (lowsOf df) with
  | some latest, some hi, some lo =>
    if min_points ≤ hi - latest then
      (some "BUY", some latest, some (latest + min_points))
    else if min_points ≤ latest - lo then
      (some "SELL", some latest, some (latest - min_points))
    else (none, some latest, none)
  | _, _, _ => (none, none, none)

/-- The spec's per-bar true range, for bars `i > 0`:
`max(high[i]-low[i], |high[i]-close[i-1]|, |low[i]-close[i-1]|)`.  This
definition follows the SPEC's words (§4.2), to be compared with the
source-derived `atr`. -/
def spec_trueRanges : List Candle → List ℚ
  | a :: b :: rest =>
    max (b.high - b.low) (max |b.high - a.close| |b.low - a.close|) ::
      spec_trueRanges (b :: rest)
  | _ => []

/-- The spec's volatility estimate (§4.2): the arithmetic mean of the true
range over the last `P` bars.  Follows the SPEC's words, for comparison
with the source-derived `atr`. -/
def spec_atr (df : List Candle) (period : ℕ) : ℚ :=
  listMean (lastN period (spec_trueRanges df))

/-! Concrete frames used to evaluate the embedded functions. -/

/-- A fully flat candle at price 100. -/
def flatC : Candle := ⟨0, 100, 100, 100, 100⟩

/-- Six flat bars at 100: zero close-to-close movement, swing extremes 100. -/
def atrFlat6 : List Candle := List.replicate 6 flatC

/-- Two bars, each with open = high = low = close, at 100 and then 101. -/
def atrStep : List Candle := [⟨0, 100, 100, 100, 100⟩, ⟨1, 101, 101, 101, 101⟩]

/-- Fifteen bars with range 90-110 but constant close 100: every true range
is 20 while every close-to-close difference is 0. -/
def atrCx : List Candle := List.replicate 15 (⟨0, 100, 110, 90, 100⟩ : Candle)

/-- Fifteen bars: the first spans 100-114 (true range 14), the remaining
fourteen are flat at 100 (true range 0).  The Wilder-smoothed ATR is 13/14,
while the arithmetic mean of the last 14 true ranges is 0. -/
def wilderCx : List Candle := (⟨0, 100, 114, 100, 100⟩ : Candle) :: List.replicate 14 flatC

/-- Five degenerate bars whose lows are 1, 0, 2, 0, 3 at times 0..4: with
radius 1 the bars at indices 1 and 3 are local supports. -/
def swingDf : List Candle :=
  [⟨0, 1, 1, 1, 1⟩, ⟨1, 0, 0, 0, 0⟩, ⟨2, 2, 2, 2, 2⟩, ⟨3, 0, 0, 0, 0⟩,
   ⟨4, 3, 3, 3, 3⟩]

/-- Six 15m bars, flat at 100 except one high of 110.5: ATR fallback 0,
swing high 110.5, swing low 99. -/
def bufDf : List Candle :=
  [flatC, flatC, flatC, ⟨3, 100, (221 : ℚ)/2, 99, 100⟩, flatC, flatC]

/-- An entry price of 100.0000004: four tenths of a micro-unit above 100. -/
def tinyEntry : ℚ := 250000001/2500000

/-- Twenty-two flat bars: exactly `slow + 1` bars for the default
`slow = 21`. -/
def flat22 : List Candle := List.replicate 22 flatC

/-- Twenty-three flat bars: enough history for the default windows, with
both EMAs exactly equal. -/
def flat23 : List Candle := List.replicate 23 flatC

/-- One candle with close 100, high 110, low 90: both the BUY and the SELL
condition of `trade_signal` hold for `min_points = 5`. -/
def bothSidesDf : List Candle := [⟨0, 100, 110, 90, 100⟩]

/-! General lemmas about the helper functions.  The rational arithmetic
primitives are restored to their definitional transparency so that concrete
runs of the embedded functions can be settled by `decide`. -/

attribute [local semireducible] Rat.add Rat.mul Rat.inv Rat.sub Rat.ofScientific

theorem foldl_min_le_init (xs : List ℚ) (a : ℚ) : xs.foldl min a ≤ a := by
  induction xs generalizing a with
  | nil => exact le_refl a
  | cons x rest ih =>
    calc (x :: rest).foldl min a = rest.foldl min (min a x) := rfl
    _ ≤ min a x := ih (min a x)
    _ ≤ a := min_le_left a x

theorem foldl_min_le_mem (xs : List ℚ) (a x : ℚ) (hx : x ∈ xs) :
    xs.foldl min a ≤ x := by
  induction xs generalizing a with
  | nil => cases hx
  | cons y rest ih =>
    rcases List.mem_cons.mp hx with h | h
    · subst h
      calc (x :: rest).foldl min a = rest.foldl min (min a x) := rfl
      _ ≤ min a x := foldl_min_le_init rest (min a x)
      _ ≤ x := min_le_right a x
    · exact ih (min a y) h

theorem foldl_min_eq_or_mem (xs : List ℚ) (a : ℚ) :
    xs.foldl min a = a ∨ xs.foldl min a ∈ xs := by
  induction xs generalizing a with
  | nil => exact Or.inl rfl
  | cons y rest ih =>
    rcases ih (min a y) with h | h
    · rcases min_choice a y with hm | hm
      · exact Or.inl (by rw [List.foldl_cons, h, hm])
      · exact Or.inr (by rw [List.foldl_cons, h, hm]; exact List.mem_cons_self y rest)
    · exact Or.inr (List.mem_cons_of_mem y h)

theorem foldl_max_init_le (xs : List ℚ) (a : ℚ) : a ≤ xs.foldl max a := by
  induction xs generalizing a with
  | nil => exact le_refl a
  | cons x rest ih =>
    calc a ≤ max a x := le_max_left a x
    _ ≤ rest.foldl max (max a x) := ih (max a x)
    _ = (x :: rest).foldl max a := rfl

theorem foldl_max_mem_le (xs : List ℚ) (a x : ℚ) (hx : x ∈ xs) :
    x ≤ xs.foldl max a := by
  induction xs generalizing a with
  | nil => cases hx
  | cons y rest ih =>
    rcases List.mem_cons.mp hx with h | h
    · subst h
      calc x ≤ max a x := le_max_right a x
      _ ≤ rest.foldl max (max a x) := foldl_max_init_le rest (max a x)
      _ = (x :: rest).foldl max a := rfl
    · exact ih (max a y) h

theorem foldl_max_eq_or_mem (xs : List ℚ) (a : ℚ) :
    xs.foldl max a = a ∨ xs.foldl max a ∈ xs := by
  induction xs generalizing a with
  | nil => exact Or.inl rfl
  | cons y rest ih =>
    rcases ih (max a y) with h | h
    · rcases max_choice a y with hm | hm
      · exact Or.inl (by rw [List.foldl_cons, h, hm])
      · exact Or.inr (by rw [List.foldl_cons, h, hm]; exact List.mem_cons_self y rest)
    · exact Or.inr (List.mem_cons_of_mem y h)

theorem listMin_le (xs : List ℚ) (m x : ℚ) (hm : listMin xs = some m)
    (hx : x ∈ xs) : m ≤ x := by
  cases xs with
  | nil => cases hm
  | cons y rest =>
    have hm' : rest.foldl min y = m := by simpa [listMin] using hm
    rcases List.mem_cons.mp hx with h | h
    · subst h; rw [← hm']; exact foldl_min_le_init rest x
    · rw [← hm']; exact foldl_min_le_mem rest y x h

theorem listMin_mem (xs : List ℚ) (m : ℚ) (hm : listMin xs = some m) :
    m ∈ xs := by
  cases xs with
  | nil => cases hm
  | cons y rest =>
    have hm' : rest.foldl min y = m := by simpa [listMin] using hm
    rcases foldl_min_eq_or_mem rest y with h | h
    · rw [← hm', h]; exact List.mem_cons_self y rest
    · rw [← hm']; exact List.mem_cons_of_mem y h

theorem listMin_isSome (xs : List ℚ) (h : xs ≠ []) :
    ∃ m, listMin xs = some m := by
  cases xs with
  | nil => exact absurd rfl h
  | cons y rest => exact ⟨rest.foldl min y, rfl⟩

theorem listMax_le (xs : List ℚ) (m x : ℚ) (hm : listMax xs = some m)
    (hx : x ∈ xs) : x ≤ m := by
  cases xs with
  | nil => cases hm
  | cons y rest =>
    have hm' : rest.foldl max y = m := by simpa [listMax] using hm
    rcases List.mem_cons.mp hx with h | h
    · subst h; rw [← hm']; exact foldl_max_init_le rest x
    · rw [← hm']; exact foldl_max_mem_le rest y x h

theorem listMax_mem (xs : List ℚ) (m : ℚ) (hm : listMax xs = some m) :
    m ∈ xs := by
  cases xs with
  | nil => cases hm
  | cons y rest =>
    have hm' : rest.foldl max y = m := by simpa [listMax] using hm
    rcases foldl_max_eq_or_mem rest y with h | h
    · rw [← hm', h]; exact List.mem_cons_self y rest
    · rw [← hm']; exact List.mem_cons_of_mem y h

theorem listMax_isSome (xs : List ℚ) (h : xs ≠ []) :
    ∃ m, listMax xs = some m := by
  cases xs with
  | nil => exact absurd rfl h
  | cons y rest => exact ⟨rest.foldl max y, rfl⟩

theorem emaLast_isSome (window : ℕ) (xs : List ℚ) (h : xs ≠ []) :
    ∃ v, emaLast window xs = some v := by
  cases xs with
  | nil => exact absurd rfl h
  | cons y rest => exact ⟨rest.foldl (emaStep (2 / ((window : ℚ) + 1))) y, rfl⟩

theorem lastN_length (n : ℕ) (xs : List α) :
    (lastN n xs).length = min n xs.length := by
  simp [lastN]; omega

theorem lastN_subset (n : ℕ) (xs : List α) (x : α) (h : x ∈ lastN n xs) :
    x ∈ xs := List.drop_subset _ xs h

theorem pySliceLast_subset (n : ℕ) (xs : List α) (x : α)
    (h : x ∈ pySliceLast n xs) : x ∈ xs := by
  unfold pySliceLast at h
  split at h
  · exact h
  · exact lastN_subset n xs x h

theorem diffsAbs_length : ∀ xs : List ℚ, (diffsAbs xs).length = xs.length - 1
  | [] => rfl
  | [_] => rfl
  | x :: y :: rest => by
    have ih := diffsAbs_length (y :: rest)
    simp only [diffsAbs, List.length_cons] at ih ⊢
    omega

theorem diffsAbs_nonneg : ∀ xs : List ℚ, ∀ d ∈ diffsAbs xs, 0 ≤ d
  | [] => by intro d hd; cases hd
  | [_] => by intro d hd; cases hd
  | x :: y :: rest => by
    intro d hd
    rcases List.mem_cons.mp hd with h | h
    · subst h; exact abs_nonneg _
    · exact diffsAbs_nonneg (y :: rest) d h

theorem diffsAbs_const_zero : ∀ xs : List ℚ, ∀ q : ℚ, (∀ x ∈ xs, x = q) →
    ∀ d ∈ diffsAbs xs, d = 0
  | [] => by intro q _ d hd; cases hd
  | [_] => by intro q _ d hd; cases hd
  | x :: y :: rest => by
    intro q hq d hd
    rcases List.mem_cons.mp hd with h | h
    · subst h
      have hx : x = q := hq x (List.mem_cons_self _ _)
      have hy : y = q := hq y (List.mem_cons_of_mem _ (List.mem_cons_self _ _))
      rw [hx, hy, sub_self, abs_zero]
    · exact diffsAbs_const_zero (y :: rest) q
        (fun z hz => hq z (List.mem_cons_of_mem _ hz)) d h

theorem roundHalfEven_close (x : ℚ) : |(roundHalfEven x : ℚ) - x| ≤ 1/2 := by
  have h1 : (⌊x⌋ : ℚ) ≤ x := Int.floor_le x
  have h2 : x < (⌊x⌋ : ℚ) + 1 := Int.lt_floor_add_one x
  unfold roundHalfEven
  split
  · rw [abs_le]; constructor <;> linarith
  · split
    · rw [abs_le]; push_cast; constructor <;> linarith
    · split
      · rw [abs_le]; constructor <;> linarith
      · rw [abs_le]; push_cast; constructor <;> linarith

theorem pyRound_close (n : ℕ) (x : ℚ) :
    |pyRound n x - x| ≤ 1 / (2 * 10 ^ n) := by
  have hpos : (0 : ℚ) < 10 ^ n := by positivity
  have h := roundHalfEven_close (x * 10 ^ n)
  have hrw : pyRound n x - x = ((roundHalfEven (x * 10 ^ n) : ℚ) - x * 10 ^ n) / 10 ^ n := by
    unfold pyRound
    field_simp
    ring
  rw [hrw, abs_div, abs_of_pos hpos]
  rw [div_le_div_iff₀ hpos (by positivity)]
  calc |(roundHalfEven (x * 10 ^ n) : ℚ) - x * 10 ^ n| * (2 * 10 ^ n)
      ≤ (1/2) * (2 * 10 ^ n) := by
        apply mul_le_mul_of_nonneg_right h (by positivity)
  _ = 1 * 10 ^ n := by ring

theorem closes_length (df : List Candle) : (closes df).length = df.length := by
  simp [closes]

theorem lowsOf_length (df : List Candle) : (lowsOf df).length = df.length := by
  simp [lowsOf]

theorem highsOf_length (df : List Candle) : (highsOf df).length = df.length := by
  simp [highsOf]

theorem ta_trueRangesFrom_length (df : List Candle) : ∀ prev : Candle,
    (ta_trueRangesFrom prev df).length = df.length := by
  induction df with
  | nil => intro prev; rfl
  | cons b rest ih =>
    intro prev
    simp only [ta_trueRangesFrom, List.length_cons, ih b]

theorem ta_trueRanges_length (df : List Candle) :
    (ta_trueRanges df).length = df.length := by
  cases df with
  | nil => rfl
  | cons c rest =>
    simp only [ta_trueRanges, List.length_cons, ta_trueRangesFrom_length rest c]

theorem ta_trueRangesFrom_nonneg (df : List Candle) : ∀ prev : Candle,
    ∀ x ∈ ta_trueRangesFrom prev df, 0 ≤ x := by
  induction df with
  | nil => intro prev x hx; cases hx
  | cons b rest ih =>
    intro prev x hx
    simp only [ta_trueRangesFrom] at hx
    rcases List.mem_cons.mp hx with h | h
    · subst h
      exact le_trans (abs_nonneg (b.high - prev.close))
        (le_trans (le_max_left _ _) (le_max_right _ _))
    · exact ih b x h

theorem ta_trueRanges_nonneg (df : List Candle)
    (hinv : ∀ c ∈ df, CandleInv c) : ∀ x ∈ ta_trueRanges df, 0 ≤ x := by
  cases df with
  | nil => intro x hx; cases hx
  | cons c rest =>
    intro x hx
    simp only [ta_trueRanges] at hx
    rcases List.mem_cons.mp hx with h | h
    · subst h
      obtain ⟨i1, _, i3, _⟩ := hinv c (List.mem_cons_self _ _)
      linarith
    · exact ta_trueRangesFrom_nonneg rest c x h

theorem ta_trueRangesFrom_flat (q : ℚ) (df : List Candle) : ∀ prev : Candle,
    prev.close = q →
    (∀ c ∈ df, c.open_ = q ∧ c.high = q ∧ c.low = q ∧ c.close = q) →
    ∀ x ∈ ta_trueRangesFrom prev df, x = 0 := by
  induction df with
  | nil => intro prev _ _ x hx; cases hx
  | cons b rest ih =>
    intro prev hprev hflat x hx
    simp only [ta_trueRangesFrom] at hx
    obtain ⟨_, hbh, hbl, hbc⟩ := hflat b (List.mem_cons_self _ _)
    rcases List.mem_cons.mp hx with h | h
    · subst h
      rw [hbh, hbl, hprev]
      simp
    · exact ih b hbc (fun c hc => hflat c (List.mem_cons_of_mem _ hc)) x h

theorem ta_trueRanges_flat (q : ℚ) (df : List Candle)
    (hflat : ∀ c ∈ df, c.open_ = q ∧ c.high = q ∧ c.low = q ∧ c.close = q) :
    ∀ x ∈ ta_trueRanges df, x = 0 := by
  cases df with
  | nil => intro x hx; cases hx
  | cons c rest =>
    intro x hx
    simp only [ta_trueRanges] at hx
    obtain ⟨_, hch, hcl, hcc⟩ := hflat c (List.mem_cons_self _ _)
    rcases List.mem_cons.mp hx with h | h
    · subst h
      rw [hch, hcl, sub_self]
    · exact ta_trueRangesFrom_flat q rest c hcc
        (fun b hb => hflat b (List.mem_cons_of_mem _ hb)) x h

theorem wilderFold_nonneg (P : ℕ) (hP : 1 ≤ P) (xs : List ℚ) :
    ∀ a : ℚ, 0 ≤ a → (∀ x ∈ xs, 0 ≤ x) →
    0 ≤ xs.foldl (fun b tr => (b * ((P : ℚ) - 1) + tr) / (P : ℚ)) a := by
  induction xs with
  | nil => intro a ha _; exact ha
  | cons x rest ih =>
    intro a ha hxs
    simp only [List.foldl_cons]
    apply ih
    · apply div_nonneg
      · have h1 : (1 : ℚ) ≤ (P : ℚ) := by exact_mod_cast hP
        exact add_nonneg (mul_nonneg ha (by linarith))
          (hxs x (List.mem_cons_self _ _))
      · positivity
    · exact fun y hy => hxs y (List.mem_cons_of_mem _ hy)

theorem wilderFold_const (P : ℕ) (hP : 1 ≤ P) (t : ℚ) :
    ∀ xs : List ℚ, (∀ x ∈ xs, x = t) →
    xs.foldl (fun b tr => (b * ((P : ℚ) - 1) + tr) / (P : ℚ)) t = t := by
  intro xs
  induction xs with
  | nil => intro _; rfl
  | cons x rest ih =>
    intro hxs
    have hPne : (P : ℚ) ≠ 0 := Nat.cast_ne_zero.mpr (by omega)
    have hstep : (t * ((P : ℚ) - 1) + x) / (P : ℚ) = t := by
      rw [hxs x (List.mem_cons_self _ _)]
      field_simp
      ring
    simp only [List.foldl_cons, hstep]
    exact ih (fun y hy => hxs y (List.mem_cons_of_mem _ hy))

theorem atr_of_ta_some (df : List Candle) (P : ℕ) (a : ℚ)
    (h : ta_averageTrueRange df P = some a) : atr df P = some a := by
  unfold atr
  rw [h]

theorem atr_of_ta_none (df : List Candle) (P : ℕ)
    (h : ta_averageTrueRange df P = none) :
    atr df P = if (closes df).length < 2 then none
      else if 0 < (diffsAbs (closes df)).length then
        some (listMean (pySliceLast P (diffsAbs (closes df))))
      else none := by
  unfold atr
  rw [h]

/-! Claim C1: floor invariant of the Trade Candidate Builder. -/

/-- C1 (counterexample): `compute_tp_sl` can return reason `"ok"` with a
rounded take-profit whose distance from entry is below the floor.  At entry
100.0000004, BUY, six flat 15m bars and floor 10, the pre-rounding target
110.0000004 passes the floor check, but the returned rounded take-profit is
110, whose distance from entry is 9.9999996 < 10. -/
theorem compute_tp_sl_rounded_below_floor :
    compute_tp_sl (some tinyEntry) "BUY" atrFlat6 "X" 10 =
      (some 110, some 95, "ok") ∧
    (110 : ℚ) - tinyEntry < 10 := by decide

/-- C1 (amended): whenever `compute_tp_sl` returns reason `"ok"`, the
PRE-ROUNDING take-profit distance from entry is at least the floor
`min_tp_base`; the returned take-profit is that value rounded to 6 decimal
places, so its distance from entry can undershoot the floor by at most
5·10⁻⁷. -/
theorem compute_tp_sl_floor_invariant (e : ℚ) (direction : String)
    (df : List Candle) (instrument : String) (m : ℚ)
    (hok : (compute_tp_sl (some e) direction df instrument m).2.2 = "ok") :
    m ≤ final_dist e direction df m ∧
    (compute_tp_sl (some e) direction df instrument m).1 =
      some (pyRound 6 (tp_raw e direction df m)) ∧
    m - 1/2000000 ≤
      (if direction = "BUY" then pyRound 6 (tp_raw e direction df m) - e
       else e - pyRound 6 (tp_raw e direction df m)) := by
  by_cases hlt : final_dist e direction df m < m
  · simp only [compute_tp_sl, if_pos hlt] at hok
    exact absurd hok (by decide)
  · push_neg at hlt
    refine ⟨hlt, by simp [compute_tp_sl, if_neg (not_lt.mpr hlt)], ?_⟩
    have hb := pyRound_close 6 (tp_raw e direction df m)
    have hval : (1 : ℚ) / (2 * 10 ^ 6) = 1/2000000 := by norm_num
    rw [hval, abs_le] at hb
    unfold final_dist at hlt
    by_cases hd : direction = "BUY"
    · rw [if_pos hd] at hlt ⊢; linarith [hb.1, hb.2]
    · rw [if_neg hd] at hlt ⊢; linarith [hb.1, hb.2]

/-- C1 (witness): at entry 100, BUY, six flat bars, floor 10 the result is
`"ok"` and the amended floor bounds hold. -/
theorem compute_tp_sl_floor_invariant_witness :
    (compute_tp_sl (some 100) "BUY" atrFlat6 "X" 10).1 =
      some (pyRound 6 (tp_raw 100 "BUY" atrFlat6 10)) ∧
    10 - 1/2000000 ≤ pyRound 6 (tp_raw 100 "BUY" atrFlat6 10) - 100 := by
  have h := compute_tp_sl_floor_invariant 100 "BUY" atrFlat6 "X" 10 (by decide)
  refine ⟨h.2.1, ?_⟩
  simpa using h.2.2

/-! Claim C2: UNKNOWN threshold of the Directional Signal Extractor. -/

/-- C2 (counterexample): a frame of exactly `long + 1 = 22` bars — which the
claim says is long enough to get a computed direction — still yields
UNKNOWN (`None`), because the source requires `slow + 2` bars. -/
theorem ema_dir_at_long_plus_one :
    ema_dir (some flat22) 9 21 = none ∧ 21 + 1 ≤ flat22.length := by decide

/-- C2 (amended): for windows `1 ≤ fast < slow`, `ema_dir` returns UNKNOWN
(`None`) exactly when the frame has fewer than `slow + 2` bars (not
`slow + 1` as the claim says). -/
theorem ema_dir_none_iff (df : List Candle) (fast slow : ℕ)
    (hf : 1 ≤ fast) (hfs : fast < slow) :
    ema_dir (some df) fast slow = none ↔ df.length < slow + 2 := by
  by_cases h : df.length < slow + 2
  · simp [ema_dir, h]
  · have hne : closes df ≠ [] := by
      have hlen : 0 < (closes df).length := by rw [closes_length]; omega
      exact List.ne_nil_of_length_pos hlen
    obtain ⟨x, rest, hx⟩ := List.exists_cons_of_ne_nil hne
    simp only [ema_dir, if_neg h, hx, emaLast]
    simp [h]

/-- C2 (witness): the amended threshold instantiated at the default windows
on the 22-bar frame. -/
theorem ema_dir_none_iff_witness :
    (ema_dir (some flat22) 9 21 = none ↔ flat22.length < 21 + 2) :=
  ema_dir_none_iff flat22 9 21 (by decide) (by decide)

/-! Claim C3: tie behaviour of the Directional Signal Extractor. -/

set_option maxRecDepth 8000 in
/-- C3 (counterexample): on 23 flat bars the fast and slow EMAs are exactly
equal, yet `ema_dir` returns `"SELL"`, not NEUTRAL — the source has no
NEUTRAL output at all. -/
theorem ema_dir_tie_is_sell :
    emaLast 9 (closes flat23) = emaLast 21 (closes flat23) ∧
    ema_dir (some flat23) 9 21 = some "SELL" ∧
    ("SELL" : String) ≠ "NEUTRAL" := by decide

/-- C3 (amended): with enough history (`slow + 2` bars) and windows
`1 ≤ fast < slow`, `ema_dir` returns BUY when the fast EMA strictly exceeds
the slow EMA and SELL otherwise — including on an exact tie; NEUTRAL is
never returned. -/
theorem ema_dir_buy_or_sell (df : List Candle) (fast slow : ℕ)
    (hf : 1 ≤ fast) (hfs : fast < slow) (hlen : slow + 2 ≤ df.length) :
    ema_dir (some df) fast slow =
      some (if (emaLast slow (closes df)).getD 0 <
              (emaLast fast (closes df)).getD 0 then "BUY" else "SELL") := by
  have hne : closes df ≠ [] := by
    have hl : 0 < (closes df).length := by rw [closes_length]; omega
    exact List.ne_nil_of_length_pos hl
  obtain ⟨x, rest, hx⟩ := List.exists_cons_of_ne_nil hne
  simp only [ema_dir, if_neg (show ¬df.length < slow + 2 by omega), hx, emaLast]
  simp only [Option.getD_some]

/-- C3 (witness): the amended comparison rule instantiated on the 23 flat
bars, where the tie makes the result SELL. -/
theorem ema_dir_buy_or_sell_witness :
    ema_dir (some flat23) 9 21 =
      some (if (emaLast 21 (closes flat23)).getD 0 <
              (emaLast 9 (closes flat23)).getD 0 then "BUY" else "SELL") :=
  ema_dir_buy_or_sell flat23 9 21 (by decide) (by decide) (by decide)

/-! Claim C4: what the Volatility Estimator actually averages. -/

/-- C4 (counterexample): the `try` branch of `atr` runs for 15 ≥ 14 bars and
applies WILDER smoothing, not the plain mean.  On `wilderCx` (first bar with
true range 14, the next fourteen flat with true range 0) the seed is
`mean(tr[0..13]) = 1` and the smoothed last value `(1·13 + 0)/14 = 13/14`,
while the spec's arithmetic mean over the last 14 true ranges is 0. -/
theorem atr_wilder_not_plain_mean :
    atr wilderCx 14 = some (13/14) ∧ spec_atr wilderCx 14 = 0 ∧
    ((13 : ℚ)/14) ≠ 0 ∧ 14 + 1 ≤ wilderCx.length := by decide

/-- C4 (amended): for `1 ≤ P` and at least `P + 1` bars, `atr` returns the
ta library's Wilder-smoothed true-range ATR: with `tr[0] = high[0] - low[0]`
and `tr[i]` (i > 0) the claim's max formula, it seeds with the arithmetic
mean of the FIRST `P` true ranges (sum divided by `P`) and then folds
`atr_i = (atr_{i-1}·(P-1) + tr_i)/P` over the remaining true ranges — which
is not the arithmetic mean over the last `P` bars in general; the second
conjunct shows the two do coincide when every true range is equal. -/
theorem atr_eq_wilder_tr (df : List Candle) (P : ℕ)
    (hP : 1 ≤ P) (hlen : P + 1 ≤ df.length) :
    atr df P = some (((ta_trueRanges df).drop P).foldl
      (fun a tr => (a * ((P : ℚ) - 1) + tr) / (P : ℚ))
      (((ta_trueRanges df).take P).sum / (P : ℚ))) ∧
    (∀ t, (∀ x ∈ ta_trueRanges df, x = t) → atr df P = some t) := by
  have htake : ((ta_trueRanges df).take P).length = P := by
    rw [List.length_take, ta_trueRanges_length]
    omega
  have hmean : listMean ((ta_trueRanges df).take P) =
      ((ta_trueRanges df).take P).sum / (P : ℚ) := by
    unfold listMean
    rw [htake]
  constructor
  · apply atr_of_ta_some
    unfold ta_averageTrueRange
    rw [if_pos ⟨hP, by omega⟩]
    unfold wilderLast
    rw [hmean]
  · intro t ht
    apply atr_of_ta_some
    unfold ta_averageTrueRange
    rw [if_pos ⟨hP, by omega⟩]
    unfold wilderLast
    have hseed : listMean ((ta_trueRanges df).take P) = t := by
      have hsum : ((ta_trueRanges df).take P).sum =
          ((ta_trueRanges df).take P).length • t :=
        List.sum_eq_card_nsmul _ t (fun x hx => ht x (List.take_subset _ _ hx))
      have hPne : (P : ℚ) ≠ 0 := Nat.cast_ne_zero.mpr (by omega)
      unfold listMean
      rw [hsum, htake, nsmul_eq_mul]
      exact mul_div_cancel_left₀ t hPne
    rw [hseed,
      wilderFold_const P hP t _ (fun x hx => ht x (List.drop_subset _ _ hx))]

/-- C4 (witness): on fifteen bars of range 90-110 with constant close every
true range is 20, so the Wilder ATR — like the plain mean there — is exactly
20, matching a hand trace of the ta library at this frame. -/
theorem atr_eq_wilder_tr_witness : atr atrCx 14 = some 20 :=
  (atr_eq_wilder_tr atrCx 14 (by decide) (by decide)).2 20 (by decide)

/-! Claim C5: sign, arity guard and flat-sequence value of the ATR. -/

/-- C5 (counterexample): `atrStep` consists of two bars each with
open = high = low = close (a sequence of perfectly flat candles in the
claim's wording), yet the ATR is 1, not 0, because the closes move between
the bars. -/
theorem atr_flat_bars_nonzero :
    atr atrStep 14 = some 1 ∧ (1 : ℚ) ≠ 0 := by decide

/-- C5 (amended): for periods of at least 2 (the source always uses 14): on
frames of well-formed candles (the candle invariant) the ATR is non-negative
whenever it is defined; with fewer than 2 bars it is `None` — no exception,
no division by zero (short frames make the library raise, caught by the
fallback, whose own guard returns `None`); and a sequence of IDENTICAL flat
candles, open = high = low = close = q on every bar, gives `None` (below 2
bars) or 0.  Per-bar flatness alone does not force 0 — with at least `P`
bars the library averages true ranges, nonzero as soon as closes move. -/
theorem atr_nonneg_guard_flat (df : List Candle) (P : ℕ) (q : ℚ)
    (hP : 2 ≤ P) :
    ((∀ c ∈ df, CandleInv c) → ∀ v, atr df P = some v → 0 ≤ v) ∧
    (df.length < 2 → atr df P = none) ∧
    ((∀ c ∈ df, c.open_ = q ∧ c.high = q ∧ c.low = q ∧ c.close = q) →
      atr df P = none ∨ atr df P = some 0) := by
  refine ⟨?_, ?_, ?_⟩
  · intro hinv v hv
    by_cases hg : 1 ≤ P ∧ P ≤ df.length
    · have hta : ta_averageTrueRange df P =
          some (wilderLast (ta_trueRanges df) P) := by
        unfold ta_averageTrueRange
        rw [if_pos hg]
      rw [atr_of_ta_some df P _ hta] at hv
      rw [← Option.some.inj hv]
      unfold wilderLast
      apply wilderFold_nonneg P hg.1
      · unfold listMean
        apply div_nonneg
        · apply List.sum_nonneg
          intro x hx
          exact ta_trueRanges_nonneg df hinv x (List.take_subset _ _ hx)
        · positivity
      · intro x hx
        exact ta_trueRanges_nonneg df hinv x (List.drop_subset _ _ hx)
    · have hta : ta_averageTrueRange df P = none := by
        unfold ta_averageTrueRange
        rw [if_neg hg]
      rw [atr_of_ta_none df P hta] at hv
      split at hv
      · cases hv
      · split at hv
        · rw [← Option.some.inj hv]
          unfold listMean
          apply div_nonneg
          · apply List.sum_nonneg
            intro d hd
            exact diffsAbs_nonneg (closes df) d (pySliceLast_subset _ _ _ hd)
          · positivity
        · cases hv
  · intro h
    have hta : ta_averageTrueRange df P = none := by
      unfold ta_averageTrueRange
      rw [if_neg (by omega)]
    rw [atr_of_ta_none df P hta, if_pos (by rw [closes_length]; omega)]
  · intro hflat
    by_cases hg : 1 ≤ P ∧ P ≤ df.length
    · right
      have htr0 : ∀ x ∈ ta_trueRanges df, x = 0 := ta_trueRanges_flat q df hflat
      apply atr_of_ta_some
      unfold ta_averageTrueRange
      rw [if_pos hg]
      unfold wilderLast
      have hseed : listMean ((ta_trueRanges df).take P) = 0 := by
        unfold listMean
        rw [List.sum_eq_zero (fun x hx => htr0 x (List.take_subset _ _ hx)),
          zero_div]
      rw [hseed,
        wilderFold_const P hg.1 0 _ (fun x hx => htr0 x (List.drop_subset _ _ hx))]
    · have hta : ta_averageTrueRange df P = none := by
        unfold ta_averageTrueRange
        rw [if_neg hg]
      by_cases hlen : df.length < 2
      · left
        rw [atr_of_ta_none df P hta, if_pos (by rw [closes_length]; omega)]
      · right
        have hall : ∀ x ∈ closes df, x = q := by
          intro x hx
          obtain ⟨c, hc, hcx⟩ := List.mem_map.mp hx
          rw [← hcx]
          exact (hflat c hc).2.2.2
        have hzero : ∀ d ∈ pySliceLast P (diffsAbs (closes df)), d = 0 :=
          fun d hd => diffsAbs_const_zero (closes df) q hall d
            (pySliceLast_subset _ _ _ hd)
        have hdlen : (diffsAbs (closes df)).length = df.length - 1 := by
          rw [diffsAbs_length, closes_length]
        rw [atr_of_ta_none df P hta,
          if_neg (by rw [closes_length]; omega), if_pos (by rw [hdlen]; omega)]
        unfold listMean
        rw [List.sum_eq_zero hzero, zero_div]

/-- C5 (witness): on six identical flat bars at 100 (too short for the
window, so the fallback runs) the ATR evaluates to 0 through the amended
theorem's flat branch. -/
theorem atr_nonneg_guard_flat_witness : atr atrFlat6 14 = some 0 := by
  have h := (atr_nonneg_guard_flat atrFlat6 14 100 (by decide)).2.2 (by decide)
  rcases h with h | h
  · exact absurd h (by decide)
  · exact h

/-! Claim C7: swing preference and buffer in the Trade Candidate Builder. -/

/-- C7 (counterexample): the buffer is `max(0.2% of entry, 1.0)`, not plainly
0.2% of entry.  At entry 100, floor 10 and swing high 110.5 the claim's
buffered level 110.3 lies 10.3 ≥ 10 beyond entry, so the claim predicts take
profit 110.3; the code's buffer is 1.0, its candidate 109.5 fails the
distance test, and the returned take-profit is 110 instead. -/
theorem compute_tp_sl_buffer_not_proportional :
    base_distance bufDf 10 ≤ ((221 : ℚ)/2 - (2/1000) * 100) - 100 ∧
    (swings_24h bufDf).1 = some ((221 : ℚ)/2) ∧
    compute_tp_sl (some 100) "BUY" bufDf "X" 10 = (some 110, some 95, "ok") ∧
    (110 : ℚ) ≠ (221 : ℚ)/2 - (2/1000) * 100 := by decide

/-- C7 (amended): in `compute_tp_sl`, with buffer `max(0.2%·|entry|, 1.0)`
(not plain 0.2%): for BUY, if the swing high offset by that buffer lies at
least the base distance beyond entry it becomes the take-profit, otherwise
take-profit = entry + base distance; symmetric for SELL with the swing low;
and base distance = max(floor, floor + ATR) ≥ floor. -/
theorem compute_tp_sl_swing_preference (e m : ℚ) (df : List Candle) :
    m ≤ base_distance df m ∧
    base_distance df m = max m (m + atr_val df) ∧
    (∀ sh, (swings_24h df).1 = some sh →
      (base_distance df m ≤ (sh - tp_buffer e) - e →
        tp_raw e "BUY" df m = sh - tp_buffer e) ∧
      ((sh - tp_buffer e) - e < base_distance df m →
        tp_raw e "BUY" df m = e + base_distance df m)) ∧
    ((swings_24h df).1 = none → tp_raw e "BUY" df m = e + base_distance df m) ∧
    (∀ sl, (swings_24h df).2 = some sl →
      (base_distance df m ≤ e - (sl + tp_buffer e) →
        tp_raw e "SELL" df m = sl + tp_buffer e) ∧
      (e - (sl + tp_buffer e) < base_distance df m →
        tp_raw e "SELL" df m = e - base_distance df m)) ∧
    ((swings_24h df).2 = none → tp_raw e "SELL" df m = e - base_distance df m) := by
  refine ⟨le_max_left _ _, rfl, ?_, ?_, ?_, ?_⟩
  · intro sh hsh
    constructor
    · intro hge
      simp [tp_raw, swing_tp, hsh, if_pos hge]
    · intro hlt
      simp [tp_raw, swing_tp, hsh, if_neg (not_le.mpr hlt)]
  · intro hnone
    simp [tp_raw, swing_tp, hnone]
  · intro sl hsl
    constructor
    · intro hge
      simp [tp_raw, swing_tp, hsl, if_pos hge]
    · intro hlt
      simp [tp_raw, swing_tp, hsl, if_neg (not_le.mpr hlt)]
  · intro hnone
    simp [tp_raw, swing_tp, hnone]

/-- C7 (witness): on `bufDf` the swing high 110.5 exists but its buffered
level is too close, so the take-profit falls back to entry + base
distance = 110. -/
theorem compute_tp_sl_swing_preference_witness :
    tp_raw 100 "BUY" bufDf 10 = 100 + base_distance bufDf 10 ∧
    tp_raw 100 "BUY" bufDf 10 = 110 := by
  have h := ((compute_tp_sl_swing_preference 100 10 bufDf).2.2.1
    ((221 : ℚ)/2) (by decide)).2 (by decide)
  exact ⟨h, by rw [h]; decide⟩

/-! Claim C8: agreement gating of the candidate pipeline. -/

/-- C8 (confirmed): the per-rule pipeline produces a trade candidate
(signal BUY or SELL) only when the 15m and 5m signals are equal and definite;
when they disagree the result is a NO-TRADE record with null take-profit and
stop-loss and the tagged reason string `"15m and 5m do not agree"` — the
embedding is a total function, mirroring the exception-free source paths. -/
theorem rule_result_requires_agreement (dir_15 dir_5 dir_1 confirm_1m : Option String)
    (entry : Option ℚ) (range_30m mapped_min : ℚ) (df_15 : List Candle)
    (symbol : String) :
    (¬((dir_15 = some "BUY" ∨ dir_15 = some "SELL") ∧
       (dir_5 = some "BUY" ∨ dir_5 = some "SELL") ∧ dir_15 = dir_5) →
      (rule_result dir_15 dir_5 dir_1 confirm_1m entry range_30m mapped_min df_15 symbol).signal = "NO TRADE" ∧
      (rule_result dir_15 dir_5 dir_1 confirm_1m entry range_30m mapped_min df_15 symbol).tp = none ∧
      (rule_result dir_15 dir_5 dir_1 confirm_1m entry range_30m mapped_min df_15 symbol).sl = none ∧
      (rule_result dir_15 dir_5 dir_1 confirm_1m entry range_30m mapped_min df_15 symbol).reason = "15m and 5m do not agree") ∧
    (∀ s : String,
      (rule_result dir_15 dir_5 dir_1 confirm_1m entry range_30m mapped_min df_15 symbol).signal = s →
      s = "BUY" ∨ s = "SELL" →
      dir_15 = some s ∧ dir_5 = some s) := by
  constructor
  · intro hdis
    simp [rule_result, hdis]
  · intro s hs hbs
    have hNT : s ≠ "NO TRADE" := by
      rcases hbs with h | h <;> subst h <;> decide
    simp only [rule_result] at hs
    split at hs
    · simp at hs; exact absurd hs.symm hNT
    next hagree =>
      rw [not_not] at hagree
      obtain ⟨h15, h5, heq⟩ := hagree
      split at hs
      · simp at hs; exact absurd hs.symm hNT
      split at hs
      · simp at hs; exact absurd hs.symm hNT
      split at hs
      · simp at hs; exact absurd hs.symm hNT
      split at hs
      · simp at hs; exact absurd hs.symm hNT
      simp at hs
      obtain ⟨v, hv⟩ : ∃ v, dir_15 = some v := by
        rcases h15 with h | h <;> exact ⟨_, h⟩
      rw [hv] at hs heq
      simp at hs
      subst hs
      exact ⟨hv, heq.symm⟩

/-- C8 (witness): with 15m BUY and 5m SELL the record is NO TRADE with the
disagreement reason. -/
theorem rule_result_requires_agreement_witness :
    (rule_result (some "BUY") (some "SELL") none none none 0 10 atrFlat6 "X").signal = "NO TRADE" ∧
    (rule_result (some "BUY") (some "SELL") none none none 0 10 atrFlat6 "X").reason = "15m and 5m do not agree" := by
  have h := (rule_result_requires_agreement (some "BUY") (some "SELL") none none
    none 0 10 atrFlat6 "X").1 (by decide)
  exact ⟨h.1, h.2.2.2⟩

/-! Claim C10: the minimal breakout signal of `app.py`. -/

/-- C10 (confirmed): for every nonempty frame, `trade_signal` reports the
last close as entry; it returns BUY with take-profit entry + min_points
whenever the recent high is at least min_points above entry (regardless of
the SELL condition — BUY takes precedence); it returns SELL when only the
low-side condition holds; and the signal is null with null take-profit
exactly when both conditions fail. -/
theorem trade_signal_spec (df : List Candle) (mp : ℚ) (hne : df ≠ []) :
    ∃ lc hi lo, (closes df).getLast? = some lc ∧
      listMax (highsOf df) = some hi ∧ listMin (lowsOf df) = some lo ∧
      (trade_signal df mp).2.1 = some lc ∧
      (mp ≤ hi - lc → trade_signal df mp = (some "BUY", some lc, some (lc + mp))) ∧
      (hi - lc < mp → mp ≤ lc - lo →
        trade_signal df mp = (some "SELL", some lc, some (lc - mp))) ∧
      ((trade_signal df mp).1 = none ↔ hi - lc < mp ∧ lc - lo < mp) ∧
      ((trade_signal df mp).1 = none → (trade_signal df mp).2.2 = none) := by
  have hc : closes df ≠ [] := by
    have : 0 < (closes df).length := by
      rw [closes_length]; exact List.length_pos.mpr hne
    exact List.ne_nil_of_length_pos this
  have hh : highsOf df ≠ [] := by
    have : 0 < (highsOf df).length := by
      rw [highsOf_length]; exact List.length_pos.mpr hne
    exact List.ne_nil_of_length_pos this
  have hl : lowsOf df ≠ [] := by
    have : 0 < (lowsOf df).length := by
      rw [lowsOf_length]; exact List.length_pos.mpr hne
    exact List.ne_nil_of_length_pos this
  obtain ⟨lc, hlc⟩ := Option.isSome_iff_exists.mp (List.getLast?_isSome.mpr hc)
  obtain ⟨hi, hhi⟩ := listMax_isSome (highsOf df) hh
  obtain ⟨lo, hlo⟩ := listMin_isSome (lowsOf df) hl
  refine ⟨lc, hi, lo, hlc, hhi, hlo, ?_⟩
  unfold trade_signal
  rw [hlc, hhi, hlo]
  dsimp only
  by_cases h1 : mp ≤ hi - lc
  · rw [if_pos h1]
    refine ⟨rfl, fun _ => rfl, fun hcon _ => absurd h1 (not_le.mpr hcon), ?_, ?_⟩
    · constructor
      · intro h; cases h
      · intro h; exact absurd h1 (not_le.mpr h.1)
    · intro h; cases h
  · rw [if_neg h1]
    push_neg at h1
    by_cases h2 : mp ≤ lc - lo
    · rw [if_pos h2]
      refine ⟨rfl, fun hcon => absurd hcon (not_le.mpr h1), fun _ _ => rfl, ?_, ?_⟩
      · constructor
        · intro h; cases h
        · intro h; exact absurd h2 (not_le.mpr h.2)
      · intro h; cases h
    · rw [if_neg h2]
      push_neg at h2
      exact ⟨rfl, fun hcon => absurd hcon (not_le.mpr h1),
        fun _ hcon => absurd hcon (not_le.mpr h2),
        ⟨fun _ => ⟨h1, h2⟩, fun _ => rfl⟩, fun _ => rfl⟩

/-- C10 (witness): on one candle with close 100, high 110, low 90 and
`min_points = 5`, both the BUY and the SELL conditions hold and the result
is the BUY triple. -/
theorem trade_signal_spec_witness :
    trade_signal bothSidesDf 5 = (some "BUY", some 100, some 105) ∧
    (5 : ℚ) ≤ 100 - 90 := by
  obtain ⟨lc, hi, lo, hlc, hhi, hlo, _, hbuy, _⟩ :=
    trade_signal_spec bothSidesDf 5 (by decide)
  have hlc' : lc = 100 := by
    rw [show (closes bothSidesDf).getLast? = some 100 by decide] at hlc
    exact (Option.some.inj hlc).symm
  have hhi' : hi = 110 := by
    rw [show listMax (highsOf bothSidesDf) = some 110 by decide] at hhi
    exact (Option.some.inj hhi).symm
  subst hlc' hhi'
  refine ⟨?_, by norm_num⟩
  have := hbuy (by norm_num)
  simpa using this

/-! Claim C9: totality and risk geometry of `compute_signal_instant`. -/

/-- C9 (confirmed): on frames satisfying the candle invariant,
`compute_signal_instant` (a total function — the source path raises no
exception and divides only by nonzero quantities): below 25 bars it returns
direction `"None"` with null take-profit/stop-loss/risk-reward; whenever it
returns `"Buy"` the stop-loss is strictly below price, the take-profit
satisfies tp − price = 2·(price − sl) exactly, and the risk-reward ratio —
2 before rounding — is reported as 2; symmetric for `"Sell"`. -/
theorem compute_signal_instant_safe (df : List Candle)
    (hinv : ∀ c ∈ df, CandleInv c) :
    (df.length < 25 →
      (compute_signal_instant df).direction = "None" ∧
      (compute_signal_instant df).take_profit = none ∧
      (compute_signal_instant df).stop_loss = none ∧
      (compute_signal_instant df).risk_reward = none) ∧
    (∀ p s, (compute_signal_instant df).direction = "Buy" →
      (compute_signal_instant df).price = some p →
      (compute_signal_instant df).stop_loss = some s →
      s < p ∧ (compute_signal_instant df).take_profit = some (p + 2 * (p - s)) ∧
      (compute_signal_instant df).risk_reward = some 2) ∧
    (∀ p s, (compute_signal_instant df).direction = "Sell" →
      (compute_signal_instant df).price = some p →
      (compute_signal_instant df).stop_loss = some s →
      p < s ∧ (compute_signal_instant df).take_profit = some (p - 2 * (s - p)) ∧
      (compute_signal_instant df).risk_reward = some 2) := by
  by_cases hlen : df.length < 25
  · have hdir : (compute_signal_instant df).direction = "None" := by
      simp [compute_signal_instant, hlen]
    refine ⟨fun _ => ⟨hdir, ?_, ?_, ?_⟩, ?_, ?_⟩
    · simp [compute_signal_instant, hlen]
    · simp [compute_signal_instant, hlen]
    · simp [compute_signal_instant, hlen]
    · intro p s hb _ _
      rw [hdir] at hb; exact absurd hb (by decide)
    · intro p s hb _ _
      rw [hdir] at hb; exact absurd hb (by decide)
  · have h2 : 2 ≤ df.reverse.length := by rw [List.length_reverse]; omega
    have hrevne : df.reverse ≠ [] := by
      apply List.ne_nil_of_length_pos
      omega
    obtain ⟨c1, t1, hc1⟩ := List.exists_cons_of_ne_nil hrevne
    obtain ⟨c2, t2, hc2⟩ : ∃ c2 t2, t1 = c2 :: t2 := by
      rcases t1 with _ | ⟨c2, t2⟩
      · rw [hc1] at h2; simp at h2
      · exact ⟨_, _, rfl⟩
    subst hc2
    have hm1 : c1 ∈ df := List.mem_reverse.mp (hc1 ▸ List.mem_cons_self _ _)
    obtain ⟨i1, i2, i3, i4⟩ := hinv c1 hm1
    refine ⟨fun h => absurd h hlen, ?_, ?_⟩
    · intro p s hb hp hs
      simp only [compute_signal_instant, if_neg hlen, hc1] at hb hp hs ⊢
      split at hb
      next hcond =>
        rw [if_pos hcond] at hp hs ⊢
        dsimp only at hb hp hs ⊢
        injection hp with hp'
        injection hs with hs'
        subst hp' hs'
        refine ⟨?_, rfl, ?_⟩
        · exact lt_of_le_of_lt (le_trans (min_le_left c1.low c2.low) i1) hcond.1
        have hiq : (c1.close + 2 * (c1.close - min c1.low c2.low) - c1.close) /
            (c1.close - min c1.low c2.low) = 2 := by
          rw [add_sub_cancel_left]
          have hne : c1.close - min c1.low c2.low ≠ 0 := by
            have hlow : min c1.low c2.low < c1.close :=
              lt_of_le_of_lt (le_trans (min_le_left c1.low c2.low) i1) hcond.1
            intro hz
            exact absurd (by linarith : min c1.low c2.low = c1.close)
              (ne_of_lt hlow)
          exact mul_div_cancel_right₀ 2 hne
        rw [hiq]
        decide
      next hncond =>
        split at hb
        · dsimp only at hb; exact absurd hb (by decide)
        · dsimp only at hb; exact absurd hb (by decide)
    · intro p s hb hp hs
      simp only [compute_signal_instant, if_neg hlen, hc1] at hb hp hs ⊢
      split at hb
      next hcond =>
        dsimp only at hb; exact absurd hb (by decide)
      next hncond =>
        rw [if_neg hncond] at hp hs ⊢
        split at hb
        next hcond =>
          rw [if_pos hcond] at hp hs ⊢
          dsimp only at hb hp hs ⊢
          injection hp with hp'
          injection hs with hs'
          subst hp' hs'
          refine ⟨?_, rfl, ?_⟩
          · exact lt_of_lt_of_le (lt_of_lt_of_le hcond.1 i3)
              (le_max_left c1.high c2.high)
          have hiq : (c1.close - (c1.close - 2 * (max c1.high c2.high - c1.close))) /
              (max c1.high c2.high - c1.close) = 2 := by
            rw [sub_sub_cancel]
            have hlt : c1.close < max c1.high c2.high :=
              lt_of_lt_of_le (lt_of_lt_of_le hcond.1 i3) (le_max_left _ _)
            have hne : max c1.high c2.high - c1.close ≠ 0 := by
              intro hz
              exact absurd (by linarith : max c1.high c2.high = c1.close)
                (ne_of_gt hlt)
            exact mul_div_cancel_right₀ 2 hne
          rw [hiq]
          decide
        · dsimp only at hb; exact absurd hb (by decide)

/-- C9 (witness): the under-length branch at the empty frame, where the
candle invariant holds vacuously. -/
theorem compute_signal_instant_safe_witness :
    (compute_signal_instant []).direction = "None" ∧
    (compute_signal_instant []).take_profit = none := by
  have h := (compute_signal_instant_safe [] (by simp)).1 (by decide)
  exact ⟨h.1, h.2.1⟩

/-! Claim C6: the Swing Point Detector. -/

theorem mem_windowSlice_iff (vals : List ℚ) (i left right : ℕ)
    (hl : left ≤ i) (x : ℚ) :
    x ∈ windowSlice vals i left right ↔
      ∃ j, i - left ≤ j ∧ j ≤ i + right ∧ j < vals.length ∧
        valsAt vals j = x := by
  unfold windowSlice valsAt
  constructor
  · intro hx
    obtain ⟨k, hk, hkx⟩ := List.mem_iff_getElem.mp hx
    have hk1 : k < left + right + 1 := by
      have := hk
      rw [List.length_take] at this
      omega
    have hk2 : i - left + k < vals.length := by
      have := hk
      rw [List.length_take, List.length_drop] at this
      omega
    refine ⟨i - left + k, Nat.le_add_right _ _, by omega, hk2, ?_⟩
    rw [List.getElem_take, List.getElem_drop] at hkx
    rw [List.getD_eq_getElem vals 0 hk2]
    exact hkx
  · rintro ⟨j, hj1, hj2, hj3, hjx⟩
    apply List.mem_iff_getElem.mpr
    have hk' : j - (i - left) < ((vals.drop (i - left)).take (left + right + 1)).length := by
      rw [List.length_take, List.length_drop]
      omega
    refine ⟨j - (i - left), hk', ?_⟩
    have hidx : i - left + (j - (i - left)) = j := by omega
    have hlt : i - left + (j - (i - left)) < vals.length := by omega
    have hd1 : j - (i - left) < (vals.drop (i - left)).length := by
      rw [List.length_drop]; omega
    calc ((vals.drop (i - left)).take (left + right + 1))[j - (i - left)]
        = (vals.drop (i - left))[j - (i - left)] := List.getElem_take _
      _ = vals[i - left + (j - (i - left))] := List.getElem_drop _
      _ = vals.getD (i - left + (j - (i - left))) 0 :=
            (List.getD_eq_getElem vals 0 hlt).symm
      _ = vals.getD j 0 := by rw [hidx]
      _ = x := hjx

theorem localMinIdx_mem_iff (vals : List ℚ) (W i : ℕ) :
    i ∈ localMinIdx vals W W ↔
      (W ≤ i ∧ i + W < vals.length ∧
       ∀ j, i - W ≤ j → j ≤ i + W → j < vals.length →
         valsAt vals i ≤ valsAt vals j) := by
  unfold localMinIdx
  rw [List.mem_filter, List.mem_range'_1, decide_eq_true_iff]
  constructor
  · rintro ⟨⟨hW, hlt⟩, hp⟩
    have hiW : i + W < vals.length := by omega
    refine ⟨hW, hiW, ?_⟩
    intro j hj1 hj2 hj3
    have hmem : valsAt vals j ∈ windowSlice vals i W W :=
      (mem_windowSlice_iff vals i W W hW _).mpr ⟨j, hj1, hj2, hj3, rfl⟩
    obtain ⟨m, hm⟩ := listMin_isSome _ (List.ne_nil_of_mem hmem)
    have hmd : listMinD (windowSlice vals i W W) = m := by simp [listMinD, hm]
    rw [hp, hmd]
    exact listMin_le _ m _ hm hmem
  · rintro ⟨hW, hiW, hall⟩
    have hself : valsAt vals i ∈ windowSlice vals i W W :=
      (mem_windowSlice_iff vals i W W hW _).mpr ⟨i, by omega, by omega, by omega, rfl⟩
    obtain ⟨m, hm⟩ := listMin_isSome _ (List.ne_nil_of_mem hself)
    have hmd : listMinD (windowSlice vals i W W) = m := by simp [listMinD, hm]
    refine ⟨⟨hW, by omega⟩, ?_⟩
    rw [hmd]
    obtain ⟨j, hj1, hj2, hj3, hjx⟩ :=
      (mem_windowSlice_iff vals i W W hW m).mp (listMin_mem _ m hm)
    exact le_antisymm (hjx ▸ hall j hj1 hj2 hj3) (listMin_le _ m _ hm hself)

theorem localMaxIdx_mem_iff (vals : List ℚ) (W i : ℕ) :
    i ∈ localMaxIdx vals W W ↔
      (W ≤ i ∧ i + W < vals.length ∧
       ∀ j, i - W ≤ j → j ≤ i + W → j < vals.length →
         valsAt vals j ≤ valsAt vals i) := by
  unfold localMaxIdx
  rw [List.mem_filter, List.mem_range'_1, decide_eq_true_iff]
  constructor
  · rintro ⟨⟨hW, hlt⟩, hp⟩
    have hiW : i + W < vals.length := by omega
    refine ⟨hW, hiW, ?_⟩
    intro j hj1 hj2 hj3
    have hmem : valsAt vals j ∈ windowSlice vals i W W :=
      (mem_windowSlice_iff vals i W W hW _).mpr ⟨j, hj1, hj2, hj3, rfl⟩
    obtain ⟨m, hm⟩ := listMax_isSome _ (List.ne_nil_of_mem hmem)
    have hmd : listMaxD (windowSlice vals i W W) = m := by simp [listMaxD, hm]
    rw [hp, hmd]
    exact listMax_le _ m _ hm hmem
  · rintro ⟨hW, hiW, hall⟩
    have hself : valsAt vals i ∈ windowSlice vals i W W :=
      (mem_windowSlice_iff vals i W W hW _).mpr ⟨i, by omega, by omega, by omega, rfl⟩
    obtain ⟨m, hm⟩ := listMax_isSome _ (List.ne_nil_of_mem hself)
    have hmd : listMaxD (windowSlice vals i W W) = m := by simp [listMaxD, hm]
    refine ⟨⟨hW, by omega⟩, ?_⟩
    rw [hmd]
    obtain ⟨j, hj1, hj2, hj3, hjx⟩ :=
      (mem_windowSlice_iff vals i W W hW m).mp (listMax_mem _ m hm)
    exact le_antisymm (listMax_le _ m _ hm hself) (hjx ▸ hall j hj1 hj2 hj3)

theorem localMinIdx_sorted (vals : List ℚ) (l r : ℕ) :
    List.Sorted (· < ·) (localMinIdx vals l r) :=
  List.Pairwise.filter _ (List.pairwise_lt_range' l (vals.length - r - l))

theorem localMaxIdx_sorted (vals : List ℚ) (l r : ℕ) :
    List.Sorted (· < ·) (localMaxIdx vals l r) :=
  List.Pairwise.filter _ (List.pairwise_lt_range' l (vals.length - r - l))

/-- C6 (counterexample): on the five-bar frame with lows 1, 0, 2, 0, 3 and
radius 1, the returned supports list is `[{time 1, price 0}, {time 3,
price 0}]`: its first candidate sits at index 1, DISTANCE 3 from the last
index 4, while the second sits at distance 1 — the list is ordered oldest
first, not "candidate closest to the sequence's last index first". -/
theorem swing_points_oldest_first :
    (swing_points swingDf 1 1).2 = [⟨1, 0⟩, ⟨3, 0⟩] ∧ 4 - (3 : ℕ) < 4 - 1 := by
  decide

/-- C6 (amended): with `left = right = W`, a bar index `i` is flagged as a
local support exactly when `W ≤ i`, `i ≤ length-1-W`, and its low is minimal
over the window `[i-W, i+W]` (symmetric for resistance with highs, ties
counting); the flagged indices are emitted in ASCENDING index order — most
recent LAST, not first — and the returned lists keep the trailing (most
recent) 10 entries. -/
theorem swing_points_characterization (df : List Candle) (W : ℕ) :
    (∀ i, i ∈ localMinIdx (lowsOf df) W W ↔
      (W ≤ i ∧ i + W < df.length ∧
       ∀ j, i - W ≤ j → j ≤ i + W → j < df.length →
         valsAt (lowsOf df) i ≤ valsAt (lowsOf df) j)) ∧
    (∀ i, i ∈ localMaxIdx (highsOf df) W W ↔
      (W ≤ i ∧ i + W < df.length ∧
       ∀ j, i - W ≤ j → j ≤ i + W → j < df.length →
         valsAt (highsOf df) j ≤ valsAt (highsOf df) i)) ∧
    List.Sorted (· < ·) (localMinIdx (lowsOf df) W W) ∧
    List.Sorted (· < ·) (localMaxIdx (highsOf df) W W) ∧
    (swing_points df W W).2 = lastN 10 ((localMinIdx (lowsOf df) W W).map
      (fun i => ⟨(timesOf df).getD i 0, valsAt (lowsOf df) i⟩)) ∧
    (swing_points df W W).1 = lastN 10 ((localMaxIdx (highsOf df) W W).map
      (fun i => ⟨(timesOf df).getD i 0, valsAt (highsOf df) i⟩)) ∧
    (swing_points df W W).2.length ≤ 10 ∧
    (swing_points df W W).1.length ≤ 10 := by
  have hlow := lowsOf_length df
  have hhigh := highsOf_length df
  refine ⟨?_, ?_, localMinIdx_sorted _ _ _, localMaxIdx_sorted _ _ _,
    rfl, rfl, ?_, ?_⟩
  · intro i
    rw [localMinIdx_mem_iff, hlow]
  · intro i
    rw [localMaxIdx_mem_iff, hhigh]
  · show (lastN 10 _).length ≤ 10
    rw [lastN_length]
    omega
  · show (lastN 10 _).length ≤ 10
    rw [lastN_length]
    omega

/-- C6 (witness): on the five-bar frame, index 1 is flagged as a support
(via the forward direction of the characterization its low is min over the
window) and the returned list is within the 10-candidate bound. -/
theorem swing_points_characterization_witness :
    (swing_points swingDf 1 1).2.length ≤ 10 ∧
    valsAt (lowsOf swingDf) 1 ≤ valsAt (lowsOf swingDf) 2 := by
  have h := swing_points_characterization swingDf 1
  refine ⟨h.2.2.2.2.2.2.1, ?_⟩
  have hm := (h.1 1).mp (by decide)
  exact hm.2.2 2 (by decide) (by decide) (by decide)

end TradeSignals
